import Mathlib

/-!
Verification of the `andy` message relay (`src/andy/messaging/messaging.py`).

Shallow embedding conventions:
* Python strings are modelled as `List Char`; `"s".data` builds concrete ones.
* The server registry `Server.message_queue` (a dict from client name to an
  `asyncio.Queue`) is modelled as an insertion-ordered association list
  `Registry`; Python dicts preserve insertion order and have unique keys, and
  every insertion in the source goes through a membership check first.
* An `asyncio.Queue` is modelled as a `List` of messages: `put` appends at the
  end, `get` takes the head (FIFO).
* Fallible control flow (an uncaught Python exception escaping a loop) is
  modelled with `Except`, the error payload carrying the registry state at the
  point where the exception is raised.
-/

/-- Client names on the wire, modelled as Python strings: lists of characters. -/
abbrev Name := List Char

/-- Message payloads, also Python strings. -/
abbrev Msg := List Char

/-- Python slice `s[:-1]`: every character but the last; the empty string stays
empty (`""[:-1] == ""`). Used at `messaging.py:31` (`data.decode()[:-1]`) and at
`messaging.py:165` (`msg[:-1]`). -/
def pyDropLast (l : List Char) : List Char :=
  l.take (l.length - 1)

/-- Python `msg.split(':', 1)` restricted to the two ways the source consumes
it: `some (before, after)` when the string contains a colon (split at the first
one), and `none` when it does not — in that case the two-name unpacking
`target_user, message = msg.split(':', 1)` at `messaging.py:56` raises
an uncaught `ValueError`. -/
def splitFirstColon : List Char → Option (List Char × List Char)
  | [] => none
  | c :: rest =>
    if c = ':' then some ([], rest)
    else
      match splitFirstColon rest with
      | none => none
      | some (t, b) => some (c :: t, b)

/-- Server registry `Server.message_queue`: insertion-ordered association list
from client name to the mailbox queue of that client (`messaging.py:14`). -/
abbrev Registry := List (Name × List Msg)

/-- Keys of the registry, in dict insertion order (`self.message_queue.keys()`). -/
def regKeys (st : Registry) : List Name :=
  st.map Prod.fst

/-- Dict lookup `self.message_queue[n]`: the queue bound to `n`, if present. -/
def lookupQ : Registry → Name → Option (List Msg)
  | [], _ => none
  | (k, q) :: rest, n => if k = n then some q else lookupQ rest n

/-- Lazy mailbox creation, `if n not in self.message_queue.keys():
self.message_queue[n] = asyncio.Queue()` (`messaging.py:33-34` for the
handshake and `messaging.py:58-59` for a message target). Dict insertion
appends the new key at the end of the iteration order. -/
def ensureQueue (st : Registry) (n : Name) : Registry :=
  if n ∈ regKeys st then st else st ++ [(n, [])]

/-- Enqueue `self.message_queue[n].put(m)` (`messaging.py:61`): append `m` to
the FIFO queue stored under key `n`; a missing key leaves the registry
unchanged (in the source that raise would be caught at `messaging.py:62-64`
and merely logged; every call site ensures the key first). -/
def putMsg : Registry → Name → Msg → Registry
  | [], _, _ => []
  | (k, q) :: rest, n, m =>
    if k = n then (k, q ++ [m]) :: rest else (k, q) :: putMsg rest n m

/-- Dict deletion `del self.message_queue[n]` with its `KeyError` caught
(`messaging.py:102-105`): drop the entry keyed `n`, no-op when absent. -/
def eraseKey (st : Registry) (n : Name) : Registry :=
  st.filter (fun p => decide (p.1 ≠ n))

/-- Name a connection binds during the handshake: `data.decode()[:-1]`
(`messaging.py:31`) — the first received line with its final character
removed unconditionally, whether or not that character is a newline. -/
def clientOf (data : List Char) : Name :=
  pyDropLast data

/-- Handshake effect on the registry (`messaging.py:30-34`): bind
`clientOf data` and lazily create its mailbox; an existing mailbox (and its
queued messages) is kept as is. -/
def handshake (st : Registry) (data : List Char) : Registry :=
  ensureQueue st (clientOf data)

/-- Body of one reader-pump iteration on a non-empty line
(`messaging.py:54-64`): split the decoded line at the first colon into
`target_user` and `message` — raising `ValueError` (modelled as `.error` with
the unchanged registry) when there is no colon — then lazily create the
target mailbox and enqueue the relayed string built from the sender name,
a colon, and the message.
The trailing newline of the line, when present, is part of `message` and is
therefore carried into the enqueued string. -/
def procLine (st : Registry) (sender : Name) (line : List Char) :
    Except Registry Registry :=
  match splitFirstColon line with
  | none => .error st
  | some (target, message) =>
    .ok (putMsg (ensureQueue st target) target (sender ++ ':' :: message))

/-- Reader pump `Server._read` (`messaging.py:41-73`) applied to the sequence
of lines `reader.readline()` returns on this connection. An empty read means
the peer closed the stream: the loop breaks normally (`messaging.py:65-72`,
result `.ok`). A line with no colon raises an uncaught `ValueError` out of the
loop (result `.error`, registry unchanged by the offending line); no later
line of the connection is processed. -/
def readLoop (st : Registry) (name : Name) :
    List (List Char) → Except Registry Registry
  | [] => .ok st
  | l :: ls =>
    if l = [] then .ok st
    else
      match procLine st name l with
      | .error st2 => .error st2
      | .ok st2 => readLoop st2 name ls

/-- Connection teardown after the reader pump returns (`messaging.py:38-39`):
`write_task.cancel()` plus logging. Neither statement touches
`self.message_queue`, and cancelling a task suspended in `asyncio.Queue.get`
never removes an item from the queue, so the registry is unchanged. -/
def connClose (st : Registry) : Registry :=
  st

/-- Whole connection handler `Server.proc_client` (`messaging.py:26-39`) as a
registry transformer: handshake on the first line, run the reader pump over
the remaining lines, then tear down. When the reader pump raises
(`ValueError` on a colon-free frame) the exception propagates out of
`proc_client` and the cancel/log lines are skipped; either way the registry
ends as the reader pump left it. -/
def proc_client (st : Registry) (hs : List Char) (lines : List (List Char)) :
    Registry :=
  let c := clientOf hs
  match readLoop (ensureQueue st c) c lines with
  | .ok st2 => connClose st2
  | .error st2 => st2

/-- Bytes the writer pump `Server._write` (`messaging.py:75-94`) puts on the
stream while draining a queue: each dequeued message is written verbatim
(`writer.write(msg.encode())`), head first. -/
def writerOutput : List Msg → List Char
  | [] => []
  | m :: rest => m ++ writerOutput rest

/-- One `reader.readline()` on the client side: the first line of the stream
up to and including its newline (or everything when the stream ends without
one), paired with the rest of the stream. -/
def takeLine : List Char → List Char × List Char
  | [] => ([], [])
  | c :: rest =>
    if c = '\n' then ([c], rest)
    else
      let (l, r) := takeLine rest
      (c :: l, r)

/-- Client frame construction in `Client.send` (`messaging.py:140`):
the target name, a colon, the message, and a newline. -/
def clientSendFrame (user : Name) (message : List Char) : List Char :=
  user ++ ':' :: (message ++ ['\n'])

/-- Handshake frame sent by `Client.connect` (`messaging.py:131`):
the client name followed by a newline. -/
def clientConnectFrame (name : Name) : List Char :=
  name ++ ['\n']

/-- `Client.receive` (`messaging.py:150-167`) applied to the data one
`readline()` returned: `None` on an empty read (stream closed), otherwise the
line with its final character stripped (`msg[:-1]`) — the raw relayed string,
with no further parsing. -/
def clientReceive (data : List Char) : Option (List Char) :=
  if data = [] then none else some (pyDropLast data)

/-- Successive results of up to `n` `Client.receive` calls against the byte
stream `s`, stopping at end of stream; each call consumes one line. -/
def receiveN : Nat → List Char → List (List Char)
  | 0, _ => []
  | _ + 1, [] => []
  | n + 1, c :: s =>
    pyDropLast (takeLine (c :: s)).1 :: receiveN n (takeLine (c :: s)).2

/-- Relay effect of one `send` from `sender` to target `t` with body `b`: the
reader pump of the sender connection processes the frame `Client.send` wrote
(`messaging.py:140` then `messaging.py:54-64`). -/
def relayStep (st : Registry) (t : Name) (p : Name × List Char) : Registry :=
  match procLine st p.1 (clientSendFrame t p.2) with
  | .ok st2 => st2
  | .error st2 => st2

/-- Relay effect of a sequence of sends to one target `t`, in global enqueue
order (the senders may be distinct connections; the order is the order in
which their `put` calls hit the mailbox of `t`). -/
def relayAll (st : Registry) (t : Name) (sends : List (Name × List Char)) :
    Registry :=
  sends.foldl (fun s p => relayStep s t p) st

/-! Helper lemmas about the protocol string functions. -/

theorem pyDropLast_concat (l : List Char) (c : Char) :
    pyDropLast (l ++ [c]) = l := by
  simp [pyDropLast, List.take_left]

theorem splitFirstColon_mk (t b : List Char) (ht : ':' ∉ t) :
    splitFirstColon (t ++ ':' :: b) = some (t, b) := by
  induction t with
  | nil => simp [splitFirstColon]
  | cons c rest ih =>
    have hc : c ≠ ':' := by
      intro h; exact ht (by simp [h])
    have hrest : ':' ∉ rest := fun h => ht (List.mem_cons_of_mem _ h)
    simp [splitFirstColon, hc, ih hrest]

theorem splitFirstColon_none (l : List Char) (hl : ':' ∉ l) :
    splitFirstColon l = none := by
  induction l with
  | nil => rfl
  | cons c rest ih =>
    have hc : c ≠ ':' := by
      intro h; exact hl (by simp [h])
    have hrest : ':' ∉ rest := fun h => hl (List.mem_cons_of_mem _ h)
    simp [splitFirstColon, hc, ih hrest]

theorem takeLine_mk (x r : List Char) (hx : '\n' ∉ x) :
    takeLine (x ++ '\n' :: r) = (x ++ ['\n'], r) := by
  induction x with
  | nil => simp [takeLine]
  | cons c rest ih =>
    have hc : c ≠ '\n' := by
      intro h; exact hx (by simp [h])
    have hrest : '\n' ∉ rest := fun h => hx (List.mem_cons_of_mem _ h)
    simp [takeLine, hc, ih hrest]

/-! Helper lemmas about registry operations. -/

theorem regKeys_nil : regKeys [] = [] := rfl

theorem regKeys_cons (k : Name) (q : List Msg) (rest : Registry) :
    regKeys ((k, q) :: rest) = k :: regKeys rest := rfl

theorem regKeys_append (st st2 : Registry) :
    regKeys (st ++ st2) = regKeys st ++ regKeys st2 := by
  simp [regKeys]

theorem lookupQ_isSome_iff_mem (st : Registry) (n : Name) :
    (lookupQ st n).isSome = true ↔ n ∈ regKeys st := by
  induction st with
  | nil => simp [lookupQ, regKeys_nil]
  | cons p rest ih =>
    obtain ⟨k, q⟩ := p
    simp only [lookupQ, regKeys_cons, List.mem_cons]
    by_cases hk : k = n
    · subst hk; simp
    · have hk2 : ¬n = k := fun hh => hk hh.symm
      simp [hk, hk2, ih]

theorem lookupQ_eq_none_of_not_mem (st : Registry) (n : Name)
    (h : n ∉ regKeys st) : lookupQ st n = none := by
  have h2 := (lookupQ_isSome_iff_mem st n).not.mpr h
  cases heq : lookupQ st n with
  | none => rfl
  | some q => rw [heq] at h2; simp at h2

theorem regKeys_putMsg (st : Registry) (n : Name) (m : Msg) :
    regKeys (putMsg st n m) = regKeys st := by
  induction st with
  | nil => rfl
  | cons p rest ih =>
    obtain ⟨k, q⟩ := p
    by_cases hk : k = n
    · simp [putMsg, hk, regKeys_cons]
    · simp [putMsg, hk, regKeys_cons, ih]

theorem lookupQ_putMsg_self (st : Registry) (n : Name) (m : Msg) :
    lookupQ (putMsg st n m) n = (lookupQ st n).map (fun q => q ++ [m]) := by
  induction st with
  | nil => rfl
  | cons p rest ih =>
    obtain ⟨k, q⟩ := p
    by_cases hk : k = n
    · subst hk; simp [putMsg, lookupQ]
    · simp [putMsg, lookupQ, hk, ih]

theorem lookupQ_putMsg_other (st : Registry) (n u : Name) (m : Msg)
    (h : u ≠ n) : lookupQ (putMsg st n m) u = lookupQ st u := by
  induction st with
  | nil => rfl
  | cons p rest ih =>
    obtain ⟨k, q⟩ := p
    by_cases hk : k = n
    · subst hk
      have h2 : ¬k = u := fun hh => h hh.symm
      simp [putMsg, lookupQ, h2]
    · by_cases hu : k = u
      · simp [putMsg, lookupQ, hk, hu, h]
      · simp [putMsg, lookupQ, hk, hu, ih]

theorem lookupQ_append_single_self (st : Registry) (n : Name) (q0 : List Msg)
    (h : n ∉ regKeys st) : lookupQ (st ++ [(n, q0)]) n = some q0 := by
  induction st with
  | nil => simp [lookupQ]
  | cons p rest ih =>
    obtain ⟨k, q⟩ := p
    have hk : k ≠ n := fun hh => h (by simp [regKeys_cons, hh])
    have hrest : n ∉ regKeys rest := fun hh => h (by simp [regKeys_cons, hh])
    simp [lookupQ, hk, ih hrest]

theorem lookupQ_append_single_other (st : Registry) (n u : Name)
    (q0 : List Msg) (h : u ≠ n) :
    lookupQ (st ++ [(n, q0)]) u = lookupQ st u := by
  induction st with
  | nil =>
    have h2 : ¬n = u := fun hh => h hh.symm
    simp [lookupQ, h2]
  | cons p rest ih =>
    obtain ⟨k, q⟩ := p
    by_cases hu : k = u
    · simp [lookupQ, hu]
    · simp [lookupQ, hu, ih]

theorem lookupQ_ensureQueue_self (st : Registry) (n : Name) :
    lookupQ (ensureQueue st n) n = some ((lookupQ st n).getD []) := by
  by_cases h : n ∈ regKeys st
  · rcases Option.isSome_iff_exists.mp ((lookupQ_isSome_iff_mem st n).mpr h) with ⟨q, hq⟩
    simp [ensureQueue, h, hq]
  · simp [ensureQueue, h, lookupQ_append_single_self st n [] h,
      lookupQ_eq_none_of_not_mem st n h]

theorem lookupQ_ensureQueue_other (st : Registry) (n u : Name) (h : u ≠ n) :
    lookupQ (ensureQueue st n) u = lookupQ st u := by
  by_cases hm : n ∈ regKeys st
  · simp [ensureQueue, hm]
  · simp [ensureQueue, hm, lookupQ_append_single_other st n u [] h]

theorem ensureQueue_of_mem (st : Registry) (n : Name) (h : n ∈ regKeys st) :
    ensureQueue st n = st := by
  simp [ensureQueue, h]

theorem mem_regKeys_ensureQueue (st : Registry) (n u : Name) :
    u ∈ regKeys (ensureQueue st n) ↔ u ∈ regKeys st ∨ u = n := by
  by_cases h : n ∈ regKeys st
  · simp only [ensureQueue, h, if_pos]
    constructor
    · exact Or.inl
    · rintro (h1 | rfl)
      · exact h1
      · exact h
  · simp [ensureQueue, h, regKeys_append, regKeys_cons, regKeys_nil]

theorem regKeys_ensureQueue_nodup (st : Registry) (n : Name)
    (h : (regKeys st).Nodup) : (regKeys (ensureQueue st n)).Nodup := by
  by_cases hm : n ∈ regKeys st
  · simpa [ensureQueue, hm] using h
  · have heq : regKeys (ensureQueue st n) = regKeys st ++ [n] := by
      simp [ensureQueue, hm, regKeys_append, regKeys_cons, regKeys_nil]
    rw [heq]
    exact h.append (by simp) (List.disjoint_singleton.mpr hm)

/-! Helper lemmas about the relay pipeline. -/

theorem procLine_valid (st : Registry) (s t m : List Char) (ht : ':' ∉ t) :
    procLine st s (t ++ ':' :: m)
      = .ok (putMsg (ensureQueue st t) t (s ++ ':' :: m)) := by
  simp [procLine, splitFirstColon_mk t m ht]

theorem procLine_noColon (st : Registry) (s l : List Char) (hl : ':' ∉ l) :
    procLine st s l = .error st := by
  simp [procLine, splitFirstColon_none l hl]

/-- String the relay enqueues for one send `p = (sender, body)`:
the sender name, a colon, and the message, where the message is the body
with the newline the
client appended (`messaging.py:61` after the split at `messaging.py:56`). -/
def relayedMsg (p : Name × List Char) : Msg :=
  p.1 ++ ':' :: (p.2 ++ ['\n'])

theorem relayStep_eq (st : Registry) (t : Name) (p : Name × List Char)
    (ht : ':' ∉ t) :
    relayStep st t p = putMsg (ensureQueue st t) t (relayedMsg p) := by
  unfold relayStep
  rw [show clientSendFrame t p.2 = t ++ ':' :: (p.2 ++ ['\n']) from rfl,
    procLine_valid st p.1 t (p.2 ++ ['\n']) ht]
  rfl

theorem relayAll_lookup (t : Name) (ht : ':' ∉ t) :
    ∀ (sends : List (Name × List Char)) (st : Registry),
      (lookupQ (relayAll st t sends) t).getD []
        = (lookupQ st t).getD [] ++ sends.map relayedMsg := by
  intro sends
  induction sends with
  | nil => intro st; simp [relayAll]
  | cons p rest ih =>
    intro st
    have hstep : relayAll st t (p :: rest) = relayAll (relayStep st t p) t rest := by
      simp [relayAll]
    rw [hstep, ih, relayStep_eq st t p ht, lookupQ_putMsg_self,
      lookupQ_ensureQueue_self]
    simp

theorem receiveN_chunk (n : Nat) (x r : List Char) (hx : '\n' ∉ x) :
    receiveN (n + 1) (x ++ '\n' :: r) = x :: receiveN n r := by
  have h1 := takeLine_mk x r hx
  cases x with
  | nil =>
    simp only [List.nil_append] at h1 ⊢
    simp [receiveN, h1, pyDropLast]
  | cons a y =>
    simp only [List.cons_append] at h1 ⊢
    simp only [receiveN, h1]
    have h2 := pyDropLast_concat (a :: y) '\n'
    simp only [List.cons_append] at h2
    simp [h2]

theorem receiveN_writerOutput (chunks : List Msg)
    (h : ∀ c ∈ chunks, ∃ x, c = x ++ ['\n'] ∧ '\n' ∉ x) :
    receiveN chunks.length (writerOutput chunks) = chunks.map pyDropLast := by
  induction chunks with
  | nil => rfl
  | cons c rest ih =>
    obtain ⟨x, hcx, hx⟩ := h c (by simp)
    subst hcx
    have hrest : ∀ c ∈ rest, ∃ x, c = x ++ ['\n'] ∧ '\n' ∉ x :=
      fun c hc => h c (List.mem_cons_of_mem _ hc)
    have hout : writerOutput ((x ++ ['\n']) :: rest)
        = x ++ '\n' :: writerOutput rest := by
      simp [writerOutput]
    show receiveN (rest.length + 1) (writerOutput ((x ++ ['\n']) :: rest)) = _
    rw [hout, receiveN_chunk _ x _ hx, ih hrest]
    simp [pyDropLast_concat]

/-! Administrative eviction and the connection-level server state. -/

theorem lookupQ_eraseKey_self (st : Registry) (n : Name) :
    lookupQ (eraseKey st n) n = none := by
  induction st with
  | nil => rfl
  | cons p rest ih =>
    obtain ⟨k, q⟩ := p
    by_cases hk : k = n
    · simp [eraseKey, hk] at ih ⊢; exact ih
    · simp [eraseKey, hk, lookupQ] at ih ⊢; exact ih

theorem lookupQ_eraseKey_other (st : Registry) (n u : Name) (h : u ≠ n) :
    lookupQ (eraseKey st n) u = lookupQ st u := by
  induction st with
  | nil => rfl
  | cons p rest ih =>
    obtain ⟨k, q⟩ := p
    by_cases hk : k = n
    · subst hk
      have hk2 : ¬k = u := fun hh => h hh.symm
      simp [eraseKey, lookupQ, hk2] at ih ⊢; exact ih
    · have hcons : eraseKey ((k, q) :: rest) n = (k, q) :: eraseKey rest n := by
        simp [eraseKey, hk]
      rw [hcons]
      by_cases hu : k = u
      · simp [lookupQ, hu]
      · simp [lookupQ, hu, ih]

/-- Server-side state visible to the administrative operations: the registry
dict plus the names bound by the currently live connection handlers. The
`Server` object itself stores only `message_queue` (`messaging.py:14`); live
connections exist as handler tasks each holding its stream, and no method of
`Server` other than the handler itself touches a stream, so they are carried
here as an opaque list that registry operations must leave alone. -/
structure ServerState where
  mq : Registry
  conns : List Name

/-- Administrative eviction `Server.remove_client` (`messaging.py:100-106`):
`del self.message_queue[name]` with `KeyError` caught and logged. It contains
no stream close, no task cancellation, and no access to any connection. -/
def remove_client (s : ServerState) (n : Name) : ServerState :=
  { mq := eraseKey s.mq n, conns := s.conns }

/-! Writer pump as a labelled transition system, for the cancellation claim.
The coroutine `Server._write` (`messaging.py:75-94`) has exactly two
suspension points: `await self.message_queue[name].get()` at line 80 and
`await writer.drain()` at line 90. `writer.write(msg.encode())` at line 89
runs synchronously after `get`ting with no intervening `await`, so asyncio can
deliver the `CancelledError` raised by `write_task.cancel()`
(`messaging.py:38`) only while the pump is suspended at one of the two await
points; and a `get` that is cancelled while suspended never removes an item
from the queue. Dequeue-and-write is therefore one atomic transition. -/

/-- Program counter of the writer pump: suspended in `get` (line 80) or
suspended in `drain` (line 90). -/
inductive WPC
  | atGet
  | atDrain
deriving DecidableEq

/-- State of one writer pump together with its mailbox: the queue contents,
the messages removed from the queue so far, the messages handed to
`writer.write` so far, and whether cancellation has been delivered. -/
structure WState where
  pc : WPC
  mailbox : List Msg
  dequeued : List Msg
  written : List Msg
  cancelled : Bool

/-- Transitions of the writer pump system: a reader pump of any connection may
enqueue (`put`); the writer atomically dequeues the head and writes it
(`getWrite`, lines 80-89, no await in between); `drain` completes
(`drained`, line 90); or cancellation is delivered at the current suspension
point (`cancel`, line 38). -/
inductive WStep : WState → WState → Prop
  | put : ∀ pc mb dq wr cl m,
      WStep ⟨pc, mb, dq, wr, cl⟩ ⟨pc, mb ++ [m], dq, wr, cl⟩
  | getWrite : ∀ m rest dq wr,
      WStep ⟨WPC.atGet, m :: rest, dq, wr, false⟩
        ⟨WPC.atDrain, rest, dq ++ [m], wr ++ [m], false⟩
  | drained : ∀ mb dq wr,
      WStep ⟨WPC.atDrain, mb, dq, wr, false⟩ ⟨WPC.atGet, mb, dq, wr, false⟩
  | cancel : ∀ pc mb dq wr,
      WStep ⟨pc, mb, dq, wr, false⟩ ⟨pc, mb, dq, wr, true⟩

/-- Initial writer-pump state over a mailbox holding `q0`: suspended in `get`,
nothing dequeued, nothing written, not cancelled. -/
def initW (q0 : List Msg) : WState :=
  ⟨WPC.atGet, q0, [], [], false⟩

/-- Reachable states of the writer pump system started on `q0`. -/
inductive WReach (q0 : List Msg) : WState → Prop
  | init : WReach q0 (initW q0)
  | step : ∀ s s2, WReach q0 s → WStep s s2 → WReach q0 s2

theorem wreach_dequeued_eq_written (q0 : List Msg) (s : WState)
    (h : WReach q0 s) : s.dequeued = s.written := by
  induction h with
  | init => rfl
  | step s s2 _ hstep ih =>
    cases hstep with
    | put pc mb dq wr cl m => exact ih
    | getWrite m rest dq wr => simp at ih ⊢; rw [ih]
    | drained mb dq wr => exact ih
    | cancel pc mb dq wr => exact ih

/-! Lexicographic order on names. Python `sorted` on `str` compares
lexicographically by code point; `<` on `Char` is exactly code-point order. -/

/-- Boolean lexicographic comparison of two names, code point by code point. -/
def nameLeB : Name → Name → Bool
  | [], _ => true
  | _ :: _, [] => false
  | a :: as, b :: bs => if a = b then nameLeB as bs else decide (a < b)

theorem nameLeB_total : ∀ a b : Name, nameLeB a b = true ∨ nameLeB b a = true
  | [], _ => Or.inl rfl
  | _ :: _, [] => Or.inr rfl
  | a :: as, b :: bs => by
    by_cases hab : a = b
    · subst hab
      simp only [nameLeB, if_pos rfl]
      exact nameLeB_total as bs
    · have hba : ¬b = a := fun hh => hab hh.symm
      rcases lt_or_gt_of_ne hab with h | h
      · left
        simp only [nameLeB, if_neg hab]
        exact decide_eq_true h
      · right
        simp only [nameLeB, if_neg hba]
        exact decide_eq_true h

theorem nameLeB_trans : ∀ a b c : Name,
    nameLeB a b = true → nameLeB b c = true → nameLeB a c = true
  | [], _, _, _, _ => rfl
  | _ :: _, [], _, h1, _ => by simp [nameLeB] at h1
  | _ :: _, _ :: _, [], _, h2 => by simp [nameLeB] at h2
  | a :: as, b :: bs, c :: cs, h1, h2 => by
    simp only [nameLeB] at h1 h2 ⊢
    by_cases hab : a = b
    · subst hab
      rw [if_pos rfl] at h1
      by_cases hac : a = c
      · subst hac
        rw [if_pos rfl] at h2 ⊢
        exact nameLeB_trans as bs cs h1 h2
      · rw [if_neg hac] at h2 ⊢
        exact h2
    · rw [if_neg hab] at h1
      have hab2 : a < b := of_decide_eq_true h1
      by_cases hbc : b = c
      · subst hbc
        rw [if_neg hab]
        exact decide_eq_true hab2
      · rw [if_neg hbc] at h2
        have hbc2 : b < c := of_decide_eq_true h2
        have hac2 : a < c := lt_trans hab2 hbc2
        rw [if_neg (ne_of_lt hac2)]
        exact decide_eq_true hac2

theorem nameLeB_antisymm : ∀ a b : Name,
    nameLeB a b = true → nameLeB b a = true → a = b
  | [], [], _, _ => rfl
  | [], _ :: _, _, h2 => by simp [nameLeB] at h2
  | _ :: _, [], h1, _ => by simp [nameLeB] at h1
  | a :: as, b :: bs, h1, h2 => by
    simp only [nameLeB] at h1 h2
    by_cases hab : a = b
    · subst hab
      rw [if_pos rfl] at h1 h2
      rw [nameLeB_antisymm as bs h1 h2]
    · have hba : ¬b = a := fun hh => hab hh.symm
      rw [if_neg hab] at h1
      rw [if_neg hba] at h2
      exact absurd (lt_trans (of_decide_eq_true h1) (of_decide_eq_true h2))
        (lt_irrefl a)

/-- Propositional form of the lexicographic order, for the sorting lemmas. -/
def nle (a b : Name) : Prop :=
  nameLeB a b = true

instance : DecidableRel nle :=
  fun a b => instDecidableEqBool (nameLeB a b) true

instance : IsTotal Name nle :=
  ⟨nameLeB_total⟩

instance : IsTrans Name nle :=
  ⟨nameLeB_trans⟩

instance : IsAntisymm Name nle :=
  ⟨nameLeB_antisymm⟩

/-- `Server.current_clients` (`messaging.py:96-98`):
`sorted(self.message_queue.keys())`, the registry keys in lexicographic
order. -/
def current_clients (st : Registry) : List Name :=
  List.insertionSort nle (regKeys st)

/-! Registry-mutating events of a server execution: the two places that touch
`message_queue` while serving connections are the handshake
(`messaging.py:30-34`) and the reader-pump processing of one received line
(`messaging.py:54-64`). A global execution is an arbitrary interleaving of
such events across connections. -/

/-- One registry-mutating event: a connection completing its handshake with
raw first line `data`, or the reader pump bound to `sender` processing one
received line `l`. -/
inductive SrvEv
  | shake (data : List Char)
  | line (sender : Name) (l : List Char)

/-- Effect of one event on the registry. A handshake lazily creates the
mailbox of the name it binds; a line event enqueues through `procLine`, and
when `procLine` raises (no colon) the registry is left as it was. -/
def runEv (st : Registry) : SrvEv → Registry
  | .shake d => handshake st d
  | .line s l =>
    match procLine st s l with
    | .ok st2 => st2
    | .error st2 => st2

/-- Registry after a sequence of events. -/
def runEvents (st : Registry) (evts : List SrvEv) : Registry :=
  evts.foldl runEv st

/-- Names referenced by one event: the name a handshake binds, or the target
named before the first colon of a processed line (a colon-free line
references nobody: it is rejected before `getOrCreate`). -/
def evRef : SrvEv → List Name
  | .shake d => [clientOf d]
  | .line _ l =>
    match splitFirstColon l with
    | none => []
    | some (t, _) => [t]

/-- Every name referenced over a sequence of events, in order. -/
def refNames : List SrvEv → List Name
  | [] => []
  | e :: rest => evRef e ++ refNames rest

theorem mem_regKeys_runEv (st : Registry) (e : SrvEv) (u : Name) :
    u ∈ regKeys (runEv st e) ↔ u ∈ regKeys st ∨ u ∈ evRef e := by
  cases e with
  | shake d =>
    simp only [runEv, handshake, evRef, List.mem_singleton]
    exact mem_regKeys_ensureQueue st (clientOf d) u
  | line s l =>
    cases hsp : splitFirstColon l with
    | none => simp [runEv, procLine, hsp, evRef]
    | some p =>
      obtain ⟨t, b⟩ := p
      simp only [runEv, procLine, hsp, evRef, List.mem_singleton]
      rw [regKeys_putMsg]
      exact mem_regKeys_ensureQueue st t u

theorem nodup_regKeys_runEv (st : Registry) (e : SrvEv)
    (h : (regKeys st).Nodup) : (regKeys (runEv st e)).Nodup := by
  cases e with
  | shake d => exact regKeys_ensureQueue_nodup st (clientOf d) h
  | line s l =>
    cases hsp : splitFirstColon l with
    | none => simpa [runEv, procLine, hsp] using h
    | some p =>
      obtain ⟨t, b⟩ := p
      simp only [runEv, procLine, hsp]
      rw [regKeys_putMsg]
      exact regKeys_ensureQueue_nodup st t h

theorem mem_regKeys_runEvents :
    ∀ (evts : List SrvEv) (st : Registry) (u : Name),
      u ∈ regKeys (runEvents st evts) ↔ u ∈ regKeys st ∨ u ∈ refNames evts := by
  intro evts
  induction evts with
  | nil => intro st u; simp [runEvents, refNames]
  | cons e rest ih =>
    intro st u
    have hfold : runEvents st (e :: rest) = runEvents (runEv st e) rest := rfl
    rw [hfold, ih, mem_regKeys_runEv]
    simp [refNames, or_assoc]

theorem nodup_regKeys_runEvents :
    ∀ (evts : List SrvEv) (st : Registry),
      (regKeys st).Nodup → (regKeys (runEvents st evts)).Nodup := by
  intro evts
  induction evts with
  | nil => intro st h; exact h
  | cons e rest ih =>
    intro st h
    exact ih (runEv st e) (nodup_regKeys_runEv st e h)

/-! Helper lemmas for the connection-handler lifecycle. -/

/-- Registry state a finished reader pump leaves behind, whether the loop
ended by a clean break (`.ok`) or by the uncaught `ValueError` (`.error`):
in both cases `message_queue` is whatever the loop built so far. -/
def exceptState : Except Registry Registry → Registry
  | .ok st => st
  | .error st => st

theorem proc_client_eq (st : Registry) (hs : List Char)
    (lines : List (List Char)) :
    proc_client st hs lines
      = exceptState (readLoop (ensureQueue st (clientOf hs)) (clientOf hs) lines) := by
  unfold proc_client
  cases h : readLoop (ensureQueue st (clientOf hs)) (clientOf hs) lines with
  | ok st2 => simp [h, connClose, exceptState]
  | error st2 => simp [h, exceptState]

theorem readLoop_lookup_mono :
    ∀ (lines : List (List Char)) (st : Registry) (name n : Name) (q : List Msg),
      lookupQ st n = some q →
      ∃ q2, lookupQ (exceptState (readLoop st name lines)) n = some (q ++ q2) := by
  intro lines
  induction lines with
  | nil =>
    intro st name n q hq
    exact ⟨[], by simpa [readLoop, exceptState] using hq⟩
  | cons l ls ih =>
    intro st name n q hq
    by_cases hl : l = []
    · subst hl
      exact ⟨[], by simpa [readLoop, exceptState] using hq⟩
    · cases hsp : splitFirstColon l with
      | none =>
        have hred : readLoop st name (l :: ls) = .error st := by
          simp [readLoop, hl, procLine, hsp]
        exact ⟨[], by simp [hred, exceptState, hq]⟩
      | some p =>
        obtain ⟨t, b⟩ := p
        have hred : readLoop st name (l :: ls)
            = readLoop (putMsg (ensureQueue st t) t (name ++ ':' :: b)) name ls := by
          simp [readLoop, hl, procLine, hsp]
        rw [hred]
        by_cases hnt : n = t
        · subst hnt
          have hq2 : lookupQ (putMsg (ensureQueue st n) n (name ++ ':' :: b)) n
              = some (q ++ [name ++ ':' :: b]) := by
            rw [lookupQ_putMsg_self, lookupQ_ensureQueue_self, hq]
            rfl
          obtain ⟨q2, hres⟩ := ih _ name n _ hq2
          exact ⟨[name ++ ':' :: b] ++ q2, by rw [hres, List.append_assoc]⟩
        · have hq2 : lookupQ (putMsg (ensureQueue st t) t (name ++ ':' :: b)) n
              = some q := by
            rw [lookupQ_putMsg_other _ _ _ _ hnt,
              lookupQ_ensureQueue_other _ _ _ hnt, hq]
          exact ih _ name n q hq2

theorem mem_regKeys_exceptState_readLoop (lines : List (List Char))
    (st : Registry) (name n : Name) (h : n ∈ regKeys st) :
    n ∈ regKeys (exceptState (readLoop st name lines)) := by
  rcases Option.isSome_iff_exists.mp ((lookupQ_isSome_iff_mem st n).mpr h) with ⟨q, hq⟩
  obtain ⟨q2, hres⟩ := readLoop_lookup_mono lines st name n q hq
  exact (lookupQ_isSome_iff_mem _ n).mp (by rw [hres]; rfl)

/-! Claim theorems. -/

/-- C1, counterexample: with "alice" connected, the reader pump fed the
colon-free frame `"garbage\n"` followed by the valid frame `"bob:hi\n"` does
not log-and-continue: the loop ends in the uncaught `ValueError`
(`.error`), the subsequent valid frame is never processed, and no message for
"bob" is enqueued (the registry never gains a "bob" mailbox). -/
theorem c1_counterexample_noColon_terminates_reader :
    readLoop [("alice".data, [])] "alice".data
        ["garbage\n".data, "bob:hi\n".data]
      = .error [("alice".data, [])]
    ∧ lookupQ [("alice".data, [])] "bob".data = none :=
  ⟨rfl, by decide⟩

/-- C1, amended: when the reader pump reads a non-empty data frame containing
no colon, the two-variable unpacking of `msg.split(':', 1)` at
`messaging.py:56` raises an uncaught `ValueError`: the read loop terminates
at that frame with the registry unchanged, and no subsequent frame of the
connection is processed. -/
theorem c1_amended_noColon_raises (st : Registry) (name l : List Char)
    (ls : List (List Char)) (hne : l ≠ []) (hl : ':' ∉ l) :
    readLoop st name (l :: ls) = .error st := by
  simp [readLoop, hne, procLine, splitFirstColon_none l hl]

/-- Witness for the amended C1 at the concrete frame `"garbage\n"`. -/
theorem c1_amended_noColon_raises_witness :
    ("garbage\n".data ≠ [] ∧ ':' ∉ "garbage\n".data)
    ∧ readLoop [] "alice".data ["garbage\n".data] = .error [] :=
  ⟨by decide,
    c1_amended_noColon_raises [] "alice".data "garbage\n".data [] (by decide)
      (by decide)⟩

/-- C2: for any sequence of sends to one target mailbox, in global enqueue
order, the successive `receive()` results of the connected target are exactly
the sent messages, in that order (FIFO per mailbox): the reader pumps append
to the queue in enqueue order, the writer pump drains head-first onto the
stream, and the target client reads the frames back line by line. -/
theorem c2_fifo_per_mailbox (st0 : Registry) (t : Name)
    (sends : List (Name × List Char)) (ht : ':' ∉ t)
    (h0 : lookupQ st0 t = none ∨ lookupQ st0 t = some [])
    (hnl : ∀ p ∈ sends, '\n' ∉ p.1 ∧ '\n' ∉ p.2) :
    receiveN sends.length
        (writerOutput ((lookupQ (relayAll st0 t sends) t).getD []))
      = sends.map (fun p => p.1 ++ ':' :: p.2) := by
  have hempty : (lookupQ st0 t).getD [] = [] := by
    rcases h0 with h | h
    · rw [h]; rfl
    · rw [h]; rfl
  have hq : (lookupQ (relayAll st0 t sends) t).getD []
      = sends.map relayedMsg := by
    rw [relayAll_lookup t ht sends st0, hempty, List.nil_append]
  have hchunks : ∀ c ∈ sends.map relayedMsg, ∃ x, c = x ++ ['\n'] ∧ '\n' ∉ x := by
    intro c hc
    rcases List.mem_map.mp hc with ⟨p, hp, rfl⟩
    refine ⟨p.1 ++ ':' :: p.2, by simp [relayedMsg], ?_⟩
    intro hmem
    rcases List.mem_append.mp hmem with h | h
    · exact (hnl p hp).1 h
    · rcases List.mem_cons.mp h with h | h
      · exact absurd h (by decide)
      · exact (hnl p hp).2 h
  have hlen : sends.length = (sends.map relayedMsg).length :=
    (List.length_map _ _).symm
  rw [hq, hlen, receiveN_writerOutput _ hchunks, List.map_map]
  apply List.map_congr_left
  intro p hp
  show pyDropLast (relayedMsg p) = p.1 ++ ':' :: p.2
  have hrm : relayedMsg p = (p.1 ++ ':' :: p.2) ++ ['\n'] := by
    simp [relayedMsg]
  rw [hrm, pyDropLast_concat]

/-- Witness for C2: two sends from distinct senders to "bob", received back in
send order, the second body itself containing a colon. -/
theorem c2_fifo_per_mailbox_witness :
    (':' ∉ "bob".data)
    ∧ receiveN 2
        (writerOutput ((lookupQ (relayAll [] "bob".data
            [("alice".data, "hi".data), ("carol".data, "yo:2".data)])
          "bob".data).getD []))
      = ["alice:hi".data, "carol:yo:2".data] :=
  ⟨by decide,
    c2_fifo_per_mailbox [] "bob".data
      [("alice".data, "hi".data), ("carol".data, "yo:2".data)] (by decide)
      (Or.inl rfl) (by decide)⟩

/-- C3: a send whose target name was never referenced does not fail: the
reader pump lazily creates the target mailbox and enqueues the message
(`.ok`, first two conjuncts); a later handshake by the target finds the
mailbox already registered, keeping the queued message (third conjunct); and
the writer pump spawned for that connection writes the message out (fourth
conjunct). -/
theorem c3_unknown_target_mailbox_created (st0 : Registry) (s t b : List Char)
    (ht : ':' ∉ t) (hnew : t ∉ regKeys st0) :
    procLine st0 s (clientSendFrame t b)
        = .ok (putMsg (ensureQueue st0 t) t (relayedMsg (s, b)))
    ∧ lookupQ (putMsg (ensureQueue st0 t) t (relayedMsg (s, b))) t
        = some [relayedMsg (s, b)]
    ∧ lookupQ (handshake (putMsg (ensureQueue st0 t) t (relayedMsg (s, b)))
          (clientConnectFrame t)) t
        = some [relayedMsg (s, b)]
    ∧ writerOutput [relayedMsg (s, b)] = relayedMsg (s, b) := by
  have h1 : procLine st0 s (clientSendFrame t b)
      = .ok (putMsg (ensureQueue st0 t) t (relayedMsg (s, b))) := by
    rw [show clientSendFrame t b = t ++ ':' :: (b ++ ['\n']) from rfl]
    exact procLine_valid st0 s t (b ++ ['\n']) ht
  have h2 : lookupQ (putMsg (ensureQueue st0 t) t (relayedMsg (s, b))) t
      = some [relayedMsg (s, b)] := by
    rw [lookupQ_putMsg_self, lookupQ_ensureQueue_self,
      lookupQ_eq_none_of_not_mem st0 t hnew]
    rfl
  refine ⟨h1, h2, ?_, by simp [writerOutput]⟩
  unfold handshake
  have hcl : clientOf (clientConnectFrame t) = t := pyDropLast_concat t '\n'
  rw [hcl]
  have hmem : t ∈ regKeys (putMsg (ensureQueue st0 t) t (relayedMsg (s, b))) := by
    rw [regKeys_putMsg]
    exact (mem_regKeys_ensureQueue st0 t t).mpr (Or.inr rfl)
  rw [ensureQueue_of_mem _ _ hmem]
  exact h2

/-- Witness for C3: the spec scenario where "carol" sends to "dave" before
"dave" ever connects. -/
theorem c3_unknown_target_mailbox_created_witness :
    (':' ∉ "dave".data) ∧ ("dave".data ∉ regKeys ([] : Registry))
    ∧ lookupQ (putMsg (ensureQueue [] "dave".data) "dave".data
          (relayedMsg ("carol".data, "later".data))) "dave".data
        = some [relayedMsg ("carol".data, "later".data)] :=
  ⟨by decide, by decide,
    (c3_unknown_target_mailbox_created [] "carol".data "dave".data
      "later".data (by decide) (by decide)).2.1⟩

/-- C4: in every reachable state of the writer-pump system — in particular in
every state where cancellation has been delivered — the messages dequeued from
the mailbox and the messages written to the stream coincide: cancellation can
hit only at the two await points (before a dequeue, or after the dequeued
message was already written), never between a dequeue and its delivery, so no
dequeued message is dropped. -/
theorem c4_cancel_never_drops_dequeued (q0 : List Msg) (s : WState)
    (hr : WReach q0 s) (_hc : s.cancelled = true) :
    s.dequeued = s.written :=
  wreach_dequeued_eq_written q0 s hr

/-- Witness for C4: a concrete run — dequeue-and-write one message, then the
reader exit cancels the pump while it is suspended in `drain`. -/
theorem c4_cancel_never_drops_dequeued_witness :
    WReach ["alice:hi\n".data]
        ⟨WPC.atDrain, [], ["alice:hi\n".data], ["alice:hi\n".data], true⟩
    ∧ (⟨WPC.atDrain, [], ["alice:hi\n".data], ["alice:hi\n".data], true⟩
          : WState).dequeued
      = (⟨WPC.atDrain, [], ["alice:hi\n".data], ["alice:hi\n".data], true⟩
          : WState).written := by
  have h1 : WReach ["alice:hi\n".data]
      ⟨WPC.atDrain, [], ["alice:hi\n".data], ["alice:hi\n".data], false⟩ :=
    WReach.step _ _ WReach.init (WStep.getWrite "alice:hi\n".data [] [] [])
  have h2 : WReach ["alice:hi\n".data]
      ⟨WPC.atDrain, [], ["alice:hi\n".data], ["alice:hi\n".data], true⟩ :=
    WReach.step _ _ h1
      (WStep.cancel WPC.atDrain [] ["alice:hi\n".data] ["alice:hi\n".data])
  exact ⟨h2, c4_cancel_never_drops_dequeued _ _ h2 rfl⟩

/-- C5: when a connection handler ends, the registry is exactly what the
reader pump left (the teardown at `messaging.py:38-39` changes no lookup,
first conjunct); the bound name still has its mailbox entry (second
conjunct); and every message queued in any mailbox before the handler ran is
still there, in place, possibly followed by newly relayed ones (third
conjunct) — disconnection never removes a mailbox or drops pending
messages. -/
theorem c5_mailbox_survives_disconnect (st : Registry) (hs : List Char)
    (lines : List (List Char)) (n : Name) :
    (∀ st2, lookupQ (connClose st2) n = lookupQ st2 n)
    ∧ clientOf hs ∈ regKeys (proc_client st hs lines)
    ∧ (∀ q, lookupQ st n = some q →
        ∃ q2, lookupQ (proc_client st hs lines) n = some (q ++ q2)) := by
  refine ⟨fun st2 => rfl, ?_, ?_⟩
  · rw [proc_client_eq]
    apply mem_regKeys_exceptState_readLoop
    exact (mem_regKeys_ensureQueue st (clientOf hs) (clientOf hs)).mpr
      (Or.inr rfl)
  · intro q hq
    rw [proc_client_eq]
    by_cases hn : n = clientOf hs
    · have h1 : lookupQ (ensureQueue st (clientOf hs)) n = some q := by
        rw [hn, lookupQ_ensureQueue_self]
        rw [hn] at hq
        rw [hq]
        rfl
      exact readLoop_lookup_mono lines _ _ n q h1
    · have h1 : lookupQ (ensureQueue st (clientOf hs)) n = some q := by
        rw [lookupQ_ensureQueue_other st (clientOf hs) n hn, hq]
      exact readLoop_lookup_mono lines _ _ n q h1

/-- Witness for C5: "alice" connects and disconnects without sending; the
offline message queued for "bob" beforehand is still in the registry after
the handler for "alice" has ended. -/
theorem c5_mailbox_survives_disconnect_witness :
    clientOf "alice\n".data
        ∈ regKeys (proc_client [("bob".data, ["carol:hi\n".data])]
            "alice\n".data [])
    ∧ ∃ q2, lookupQ (proc_client [("bob".data, ["carol:hi\n".data])]
          "alice\n".data []) "bob".data
        = some (["carol:hi\n".data] ++ q2) :=
  ⟨(c5_mailbox_survives_disconnect [("bob".data, ["carol:hi\n".data])]
      "alice\n".data [] "bob".data).2.1,
    (c5_mailbox_survives_disconnect [("bob".data, ["carol:hi\n".data])]
      "alice\n".data [] "bob".data).2.2 ["carol:hi\n".data] (by decide)⟩

/-- C6, counterexample: for the frame the server delivers after alice sends
`("bob", "hi")`, the `receive()` of bob returns the single unparsed string
`"alice:hi"` — still containing the colon separator and equal to neither the
sender component `"alice"` nor the body component `"hi"` — not the parsed
pair `("alice", "hi")`; the split is performed by the caller
(`CLI.get_messages`, `messaging.py:186`), not by `receive()`. -/
theorem c6_counterexample_receive_unparsed :
    writerOutput ((lookupQ (relayAll [] "bob".data
          [("alice".data, "hi".data)]) "bob".data).getD [])
      = "alice:hi\n".data
    ∧ clientReceive "alice:hi\n".data = some ("alice:hi".data)
    ∧ "alice:hi".data ≠ "alice".data
    ∧ "alice:hi".data ≠ "hi".data
    ∧ ':' ∈ "alice:hi".data := by decide

/-- C6, amended: `receive()` blocks for one frame and returns the raw
`sender:body` text with its trailing newline removed — the parsed pair
`(sender, body)` is recovered by the caller splitting at the first colon, as
`CLI.get_messages` does — and returns `None` (not a crash) at end of
stream. -/
theorem c6_amended_receive_raw_frame (s b : List Char) (hs : ':' ∉ s) :
    clientReceive ((s ++ ':' :: b) ++ ['\n']) = some (s ++ ':' :: b)
    ∧ splitFirstColon (s ++ ':' :: b) = some (s, b)
    ∧ clientReceive [] = none := by
  refine ⟨?_, splitFirstColon_mk s b hs, rfl⟩
  have hne : ¬((s ++ ':' :: b) ++ ['\n'] = []) := by simp
  unfold clientReceive
  rw [if_neg hne, pyDropLast_concat]

/-- Witness for the amended C6 on the delivered frame `"alice:hi\n"`. -/
theorem c6_amended_receive_raw_frame_witness :
    (':' ∉ "alice".data)
    ∧ clientReceive (("alice".data ++ ':' :: "hi".data) ++ ['\n'])
        = some ("alice".data ++ ':' :: "hi".data) :=
  ⟨by decide,
    (c6_amended_receive_raw_frame "alice".data "hi".data (by decide)).1⟩

/-- C7: after any sequence of connection events (handshakes and relayed
lines) starting from an empty registry, `current_clients` returns exactly the
lexicographically sorted deduplicated list of every name ever referenced —
as a handshaking connection or as a message target — independently of which
of those connections have since disconnected (disconnection is not a registry
event at all). -/
theorem c7_current_clients_all_referenced (evts : List SrvEv) :
    current_clients (runEvents [] evts)
      = List.insertionSort nle (refNames evts).dedup := by
  have hmem : ∀ u, u ∈ regKeys (runEvents [] evts) ↔ u ∈ (refNames evts).dedup := by
    intro u
    rw [List.mem_dedup, mem_regKeys_runEvents]
    simp [regKeys_nil]
  have hnd1 : (regKeys (runEvents [] evts)).Nodup :=
    nodup_regKeys_runEvents evts [] (by simp [regKeys_nil])
  have hperm : (regKeys (runEvents [] evts)).Perm (refNames evts).dedup :=
    (List.perm_ext_iff_of_nodup hnd1 (List.nodup_dedup _)).mpr hmem
  exact List.eq_of_perm_of_sorted
    (((List.perm_insertionSort nle _).trans hperm).trans
      (List.perm_insertionSort nle _).symm)
    (List.sorted_insertionSort nle _) (List.sorted_insertionSort nle _)

/-- C8: `remove_client` evicts the registry entry of the name together with
every queued undelivered message (lookup becomes `none`), leaves every other
mailbox untouched, and does not close any live connection (it never touches a
stream or a handler task). -/
theorem c8_remove_client_evicts_without_closing (s : ServerState) (n : Name) :
    lookupQ (remove_client s n).mq n = none
    ∧ (∀ m, m ≠ n → lookupQ (remove_client s n).mq m = lookupQ s.mq m)
    ∧ (remove_client s n).conns = s.conns :=
  ⟨lookupQ_eraseKey_self s.mq n,
    fun m hm => lookupQ_eraseKey_other s.mq n m hm, rfl⟩

/-- Witness for C8: evicting "bob" (backlog and all) while "bob" holds a live
connection, leaving the mailbox of "carol" and the connection list intact. -/
theorem c8_remove_client_evicts_without_closing_witness :
    lookupQ (remove_client
        ⟨[("bob".data, ["m1".data]), ("carol".data, [])], ["bob".data]⟩
        "bob".data).mq "bob".data = none
    ∧ lookupQ (remove_client
        ⟨[("bob".data, ["m1".data]), ("carol".data, [])], ["bob".data]⟩
        "bob".data).mq "carol".data
      = lookupQ [("bob".data, ["m1".data]), ("carol".data, [])] "carol".data
    ∧ (remove_client
        ⟨[("bob".data, ["m1".data]), ("carol".data, [])], ["bob".data]⟩
        "bob".data).conns = ["bob".data] :=
  ⟨(c8_remove_client_evicts_without_closing
      ⟨[("bob".data, ["m1".data]), ("carol".data, [])], ["bob".data]⟩
      "bob".data).1,
    (c8_remove_client_evicts_without_closing
      ⟨[("bob".data, ["m1".data]), ("carol".data, [])], ["bob".data]⟩
      "bob".data).2.1 "carol".data (by decide),
    (c8_remove_client_evicts_without_closing
      ⟨[("bob".data, ["m1".data]), ("carol".data, [])], ["bob".data]⟩
      "bob".data).2.2⟩

/-- C9: a data frame is split at the first colon only: for a target `t`
containing no colon and an arbitrary remainder `b` — colons included — the
split yields `(t, b)`, the reader pump routes the message to the mailbox of
`t`, and the enqueued string carries `b` intact after the sender name and one
colon. -/
theorem c9_split_first_colon_only (st : Registry) (s t b : List Char)
    (ht : ':' ∉ t) :
    splitFirstColon (t ++ ':' :: b) = some (t, b)
    ∧ procLine st s (t ++ ':' :: b)
        = .ok (putMsg (ensureQueue st t) t (s ++ ':' :: b))
    ∧ lookupQ (putMsg (ensureQueue st t) t (s ++ ':' :: b)) t
        = some ((lookupQ st t).getD [] ++ [s ++ ':' :: b]) := by
  refine ⟨splitFirstColon_mk t b ht, procLine_valid st s t b ht, ?_⟩
  rw [lookupQ_putMsg_self, lookupQ_ensureQueue_self]
  rfl

/-- Witness for C9 on a body that itself contains a colon. -/
theorem c9_split_first_colon_only_witness :
    (':' ∉ "bob".data)
    ∧ splitFirstColon ("bob".data ++ ':' :: "hi:there\n".data)
        = some ("bob".data, "hi:there\n".data) :=
  ⟨by decide,
    (c9_split_first_colon_only [] "alice".data "bob".data "hi:there\n".data
      (by decide)).1⟩

/-- C10: a peer that closes its stream before any handshake line makes
`readline` return empty bytes, so the handler binds the empty string
(`clientOf [] = []`) and creates a mailbox keyed by it; in general the bound
name is the first received line with its final character removed, whatever
that character is. -/
theorem c10_handshake_binds_dropLast (st : Registry) (l : List Char)
    (c : Char) :
    clientOf [] = []
    ∧ [] ∈ regKeys (handshake st [])
    ∧ clientOf (l ++ [c]) = l := by
  refine ⟨rfl, ?_, pyDropLast_concat l c⟩
  unfold handshake
  exact (mem_regKeys_ensureQueue st (clientOf []) []).mpr (Or.inr rfl)
